import Mathlib

/-!
Verification of the antivandal feature-extraction pipeline (antivandal.py,
antivandal_export.py): a shallow embedding of the pure computational core of
each function, with MongoDB records modelled as association lists, the HTTP
layer and third-party libraries (nltk's tokenizer, the lzw compressor,
numpy's seeded shuffle, the random letter source) modelled as explicit
function parameters, and Python's true division carried out in ℚ.
-/

/-- Values a MongoDB record field can hold in this pipeline: unicode strings,
utf8-encoded byte strings, integers, division results, booleans and None. -/
inductive Value where
  | vstr : String → Value
  | vbytes : String → Value
  | vint : Int → Value
  | vrat : ℚ → Value
  | vbool : Bool → Value
  | vnone : Value
deriving DecidableEq, Repr

/-- A record (Python dict) as an association list; the first binding of a key
is the one that counts, as dict(record, **ret) is modelled by ret ++ record. -/
abbrev Dict := List (String × Value)

/-- Lookup of a key in a record (Python record[key] / record.get(key)). -/
def dget : Dict → String → Option Value
  | [], _ => none
  | (k, v) :: rest, key => if k = key then some v else dget rest key

/-- Two records are equal as Python dicts when every key looks up equally. -/
def DictEqv (a b : Dict) : Prop := ∀ k, dget a k = dget b k

/-- Executable dict equality: agreement on every key either record mentions. -/
def dictEqB (a b : Dict) : Bool :=
  (a.map Prod.fst ++ b.map Prod.fst).all fun k => decide (dget a k = dget b k)

theorem dget_eq_none_of_not_mem (d : Dict) (k : String)
    (h : k ∉ d.map Prod.fst) : dget d k = none := by
  induction d with
  | nil => rfl
  | cons p rest ih =>
    simp only [List.map_cons, List.mem_cons] at h
    push_neg at h
    simp only [dget]
    rw [if_neg (fun e => h.1 e.symm)]
    exact ih h.2

theorem dictEqB_iff (a b : Dict) : dictEqB a b = true ↔ DictEqv a b := by
  constructor
  · intro h k
    rw [dictEqB, List.all_eq_true] at h
    by_cases ha : k ∈ a.map Prod.fst
    · exact of_decide_eq_true (h k (List.mem_append.mpr (Or.inl ha)))
    · by_cases hb : k ∈ b.map Prod.fst
      · exact of_decide_eq_true (h k (List.mem_append.mpr (Or.inr hb)))
      · rw [dget_eq_none_of_not_mem a k ha, dget_eq_none_of_not_mem b k hb]
  · intro h
    rw [dictEqB, List.all_eq_true]
    exact fun k _ => decide_eq_true (h k)

/-! ## Character classes

string.uppercase, string.lowercase, string.digits and
string.ascii_letters + string.digits under the default C locale of the
source's Python 2; all four are the ASCII ranges. -/

/-- Membership in string.uppercase (module-level set at antivandal.py:306). -/
def uppercase (c : Char) : Bool := 'A' ≤ c && c ≤ 'Z'

/-- Membership in string.lowercase (antivandal.py:307). -/
def lowercase (c : Char) : Bool := 'a' ≤ c && c ≤ 'z'

/-- Membership in string.digits (antivandal.py:308). -/
def digits (c : Char) : Bool := '0' ≤ c && c ≤ '9'

/-- Membership in string.ascii_letters + string.digits (antivandal.py:309). -/
def alphanum (c : Char) : Bool := uppercase c || lowercase c || digits c

/-! ## find_longest_seq (antivandal.py:312-324) -/

/-- The for-loop of find_longest_seq: state (prev, sz, max_sz), then the
trailing max(sz, max_sz). -/
def findLongestSeqLoop : Option Char → Nat → Nat → List Char → Nat
  | _, sz, maxSz, [] => max sz maxSz
  | prev, sz, maxSz, c :: rest =>
    if some c = prev then findLongestSeqLoop prev (sz + 1) maxSz rest
    else findLongestSeqLoop (some c) 1 (max sz maxSz) rest

/-- Embedding of find_longest_seq: prev starts at None, sz and max_sz at 0. -/
def find_longest_seq (s : String) : Nat := findLongestSeqLoop none 0 0 s.data

/-- Spec-side helper, from the claim's words: the length of the run of copies
of c at the head of a list. -/
def headRun (c : Char) : List Char → Nat
  | [] => 0
  | d :: rest => if d = c then headRun c rest + 1 else 0

/-- Spec-side definition, from the claim's words: the length of the longest
run of equal consecutive characters (the longest run starting at any
position; positions inside a run only see a shorter tail of it). -/
def longestRun : List Char → Nat
  | [] => 0
  | c :: rest => max (headRun c rest + 1) (longestRun rest)

theorem headRun_cons_self (c : Char) (rest : List Char) :
    headRun c (c :: rest) = headRun c rest + 1 := by
  simp [headRun]

theorem headRun_cons_ne (c d : Char) (rest : List Char) (h : ¬ d = c) :
    headRun c (d :: rest) = 0 := by
  simp [headRun, h]

theorem longestRun_cons (c : Char) (rest : List Char) :
    longestRun (c :: rest) = max (headRun c rest + 1) (longestRun rest) := rfl

theorem findLongestSeqLoop_cons_self (p : Char) (sz maxSz : Nat)
    (cs : List Char) :
    findLongestSeqLoop (some p) sz maxSz (p :: cs)
      = findLongestSeqLoop (some p) (sz + 1) maxSz cs := by
  simp [findLongestSeqLoop]

theorem findLongestSeqLoop_cons_ne (prev : Option Char) (c : Char)
    (sz maxSz : Nat) (cs : List Char) (h : ¬ some c = prev) :
    findLongestSeqLoop prev sz maxSz (c :: cs)
      = findLongestSeqLoop (some c) 1 (max sz maxSz) cs := by
  simp [findLongestSeqLoop, h]

theorem headRun_replicate_append (c : Char) (k : Nat) (m : List Char) :
    headRun c (List.replicate k c ++ m) = k + headRun c m := by
  induction k with
  | zero => simp
  | succ k ih =>
    rw [List.replicate_succ, List.cons_append, headRun_cons_self, ih]
    omega

theorem longestRun_replicate_append (p : Char) (m : List Char)
    (hm : headRun p m = 0) (sz : Nat) :
    longestRun (List.replicate sz p ++ m) = max sz (longestRun m) := by
  induction sz with
  | zero => simp
  | succ sz ih =>
    rw [List.replicate_succ, List.cons_append, longestRun_cons,
      headRun_replicate_append, ih, hm]
    omega

theorem findLongestSeqLoop_spec (l : List Char) : ∀ (p : Char) (sz maxSz : Nat),
    findLongestSeqLoop (some p) (sz + 1) maxSz l
      = max maxSz (longestRun (List.replicate (sz + 1) p ++ l)) := by
  induction l with
  | nil =>
    intro p sz maxSz
    rw [longestRun_replicate_append p [] rfl (sz + 1)]
    simp only [findLongestSeqLoop, longestRun]
    omega
  | cons c cs ih =>
    intro p sz maxSz
    by_cases hc : c = p
    · subst hc
      rw [findLongestSeqLoop_cons_self, ih c (sz + 1) maxSz]
      have harr : List.replicate (sz + 1 + 1) c ++ cs
          = List.replicate (sz + 1) c ++ c :: cs := by
        rw [List.replicate_succ' (sz + 1) c, List.append_assoc]
        rfl
      rw [harr]
    · have hne : ¬ (some c = some p) := by simp [hc]
      rw [findLongestSeqLoop_cons_ne (some p) c (sz + 1) maxSz cs hne]
      rw [show (1 : Nat) = 0 + 1 from rfl, ih c 0 (max (sz + 1) maxSz)]
      rw [longestRun_replicate_append p (c :: cs)
        (headRun_cons_ne p c cs hc) (sz + 1)]
      simp only [List.replicate, List.singleton_append]
      omega

theorem find_longest_seq_eq_longestRun (s : String) :
    find_longest_seq s = longestRun s.data := by
  unfold find_longest_seq
  cases hd : s.data with
  | nil => rfl
  | cons c cs =>
    have hne : ¬ (some c = (none : Option Char)) := by simp
    rw [findLongestSeqLoop_cons_ne none c 0 0 cs hne]
    rw [show max 0 0 = 0 from rfl, show (1 : Nat) = 0 + 1 from rfl]
    rw [findLongestSeqLoop_spec cs c 0 0]
    simp only [List.replicate, List.singleton_append, Nat.zero_max]

theorem replicate_infix_le (l : List Char) :
    ∀ (n : Nat) (c : Char), List.replicate n c <:+: l → n ≤ longestRun l := by
  induction l with
  | nil =>
    intro n c h
    obtain ⟨s, t, hst⟩ := h
    simp only [List.append_eq_nil] at hst
    have hn : n = 0 := by simpa using congrArg List.length hst.1.2
    omega
  | cons d rest ih =>
    intro n c h
    match n with
    | 0 => exact Nat.zero_le _
    | m + 1 =>
      obtain ⟨s, t, hst⟩ := h
      cases s with
      | nil =>
        rw [List.nil_append, List.replicate_succ, List.cons_append,
          List.cons.injEq] at hst
        obtain ⟨hdc, hrest⟩ := hst
        have hhr : headRun c rest = m + headRun c t := by
          rw [← hrest]
          exact headRun_replicate_append c m t
        subst hdc
        rw [longestRun_cons, hhr]
        omega
      | cons a s2 =>
        rw [List.cons_append, List.cons_append, List.cons.injEq] at hst
        have hinf : List.replicate (m + 1) c <:+: rest := ⟨s2, t, hst.2⟩
        calc m + 1 ≤ longestRun rest := ih (m + 1) c hinf
          _ ≤ longestRun (d :: rest) := by rw [longestRun_cons]; omega

theorem replicate_headRun_isPrefix (c : Char) :
    ∀ l : List Char, List.replicate (headRun c l) c <+: l := by
  intro l
  induction l with
  | nil => simp [headRun]
  | cons d rest ih =>
    by_cases hd : d = c
    · subst hd
      rw [headRun_cons_self, List.replicate_succ]
      obtain ⟨t, ht⟩ := ih
      exact ⟨t, by rw [List.cons_append, ht]⟩
    · rw [headRun_cons_ne c d rest hd]
      simp

theorem exists_replicate_infix (l : List Char) :
    ∃ c, List.replicate (longestRun l) c <:+: l := by
  induction l with
  | nil => exact ⟨'a', by rw [show longestRun [] = 0 from rfl]; simp⟩
  | cons c rest ih =>
    rcases Nat.le_total (longestRun rest) (headRun c rest + 1) with h | h
    · refine ⟨c, ?_⟩
      have hmax : longestRun (c :: rest) = headRun c rest + 1 := by
        rw [longestRun_cons]; omega
      rw [hmax]
      obtain ⟨t, ht⟩ := replicate_headRun_isPrefix c rest
      exact ⟨[], t, by rw [List.nil_append, List.replicate_succ,
        List.cons_append, ht]⟩
    · obtain ⟨d, s, t, hst⟩ := ih
      have hmax : longestRun (c :: rest) = longestRun rest := by
        rw [longestRun_cons]; omega
      rw [hmax]
      exact ⟨d, c :: s, t, by rw [List.cons_append, List.cons_append, hst]⟩

/-- C10: find_longest_seq returns the length of the longest run of equal
consecutive characters of its input (there is a run of that length, and no
run of equal consecutive characters is longer), and returns 0 on the empty
string. -/
theorem find_longest_seq_is_longest_run (s : String) :
    (∃ c, List.replicate (find_longest_seq s) c <:+: s.data) ∧
    (∀ (n : Nat) (c : Char), List.replicate n c <:+: s.data →
      n ≤ find_longest_seq s) ∧
    (s = "" → find_longest_seq s = 0) := by
  refine ⟨?_, ?_, ?_⟩
  · rw [find_longest_seq_eq_longestRun]
    exact exists_replicate_infix s.data
  · intro n c h
    rw [find_longest_seq_eq_longestRun]
    exact replicate_infix_le s.data n c h
  · intro h
    subst h
    rfl

/-! ## keep_urls_preprocess and keep_urls_postprocess (antivandal.py:417-445) -/

/-- The string literal magic (antivandal.py:66). -/
def magic : String := "lskmqs"

/-- A word character of Python 2's re without re.UNICODE: [A-Za-z0-9_]. -/
def isWordChar (c : Char) : Bool := alphanum c || c = '_'

/-- The character class [\w/%?#&_\-=.,] of re_http_url (antivandal.py:65). -/
def urlBodyChar (c : Char) : Bool :=
  isWordChar c || c = '/' || c = '%' || c = '?' || c = '#' || c = '&' ||
    c = '-' || c = '=' || c = '.' || c = ','

/-- The character class [\w/%?#&_\-] that must close a re_http_url match; the
trailing lookahead (?=[\x27<>.,]?) always matches its empty alternative, so
it constrains nothing. -/
def urlEndChar (c : Char) : Bool :=
  isWordChar c || c = '/' || c = '%' || c = '?' || c = '#' || c = '&' || c = '-'

/-- Greedy backtracking of [\w/%?#&_\-=.,]+ so that the match ends on a
[\w/%?#&_\-] character: the trailing characters outside that class (only
"=", "." and "," can be such) are dropped. -/
def trimUrlTail (l : List Char) : List Char :=
  (l.reverse.dropWhile (fun c => !urlEndChar c)).reverse

/-- Length of the text re_http_url matches at the start of l, given the text
character just before l (none at the start): a word boundary, "http" with an
optional "s" and "://", then the greedy run trimmed to end on urlEndChar;
the trimmed run must keep at least two characters (one for the plus, one
for the closing class). -/
def matchUrlLen (prev : Option Char) (l : List Char) : Option Nat :=
  let boundary := match prev with
    | none => true
    | some c => !isWordChar c
  if boundary then
    let scheme : Option Nat :=
      if List.isPrefixOf "https://".data l then some 8
      else if List.isPrefixOf "http://".data l then some 7
      else none
    match scheme with
    | none => none
    | some n =>
      let body := (l.drop n).takeWhile urlBodyChar
      let kept := trimUrlTail body
      if 2 ≤ kept.length then some (n + kept.length) else none
  else none

/-- State of the closure _preprocessor: preprocessor_map (placeholder to url)
and rev_preprocessor_map (url to placeholder). -/
structure UrlMaps where
  pmap : List (String × String)
  rmap : List (String × String)
deriving Repr, DecidableEq

/-- Association-list lookup: the membership test and indexing of the Python
dicts of keep_urls_preprocess. -/
def slookup : List (String × String) → String → Option String
  | [], _ => none
  | (k, v) :: rest, key => if k = key then some v else slookup rest key

/-- Python dict assignment m[k] = v: the new binding shadows any older one. -/
def supdate (m : List (String × String)) (k v : String) :
    List (String × String) :=
  (k, v) :: m.filter (fun p => p.1 != k)

/-- One call of _preprocessor on a matched url: reuse the placeholder of a
url already seen, else mint magic plus sixteen random lowercase letters;
random.sample is the oracle rnd, applied to how many distinct urls came
before. -/
def urlPreprocessor (rnd : Nat → String) (st : UrlMaps) (url : String) :
    String × UrlMaps :=
  match slookup st.rmap url with
  | some repl => (repl, st)
  | none =>
    let repl := magic ++ rnd st.rmap.length
    (repl, ⟨supdate st.pmap repl url, supdate st.rmap url repl⟩)

/-- The left-to-right scan of re.sub: fuel bounds the recursion (each step
consumes at least one character, so length + 1 fuel is always enough); prev
is the original text's character just before the current position, for the
word-boundary test. -/
def subUrls (rnd : Nat → String) :
    Nat → Option Char → List Char → UrlMaps → List Char × UrlMaps
  | 0, _, l, st => (l, st)
  | _ + 1, _, [], st => ([], st)
  | fuel + 1, prev, c :: cs, st =>
    match matchUrlLen prev (c :: cs) with
    | some n =>
      let url : List Char := (c :: cs).take n
      let res := urlPreprocessor rnd st ⟨url⟩
      let rec2 := subUrls rnd fuel url.getLast? ((c :: cs).drop n) res.2
      (res.1.data ++ rec2.1, rec2.2)
    | none =>
      let rec2 := subUrls rnd fuel (some c) cs st
      (c :: rec2.1, rec2.2)

/-- Embedding of keep_urls_preprocess (antivandal.py:417-429):
re_http_url.sub(_preprocessor, text) together with the preprocessor_map. -/
def keep_urls_preprocess (rnd : Nat → String) (text : String) :
    String × List (String × String) :=
  let res := subUrls rnd (text.data.length + 1) none text.data ⟨[], []⟩
  (⟨res.1⟩, res.2.pmap)

/-- Embedding of keep_urls_postprocess (antivandal.py:432-445): the source
builds ret = [] and then loops `for chunk in ret` over that same freshly
created accumulator, so the body never runs, chunks and preprocessor_map are
never consulted, and ret is returned still empty. -/
def keep_urls_postprocess (chunks : List String)
    (preprocessor_map : List (String × String)) : List String :=
  let ret : List String := []
  ret

/-! ## extend_with_diff (antivandal.py:221-264) -/

/-- Python sorted() over a set of strings: the distinct elements in
nondecreasing order. -/
def sortedSet (l : List String) : List String :=
  List.insertionSort (fun a b => a ≤ b) l.dedup

/-- Embedding of extend_with_diff; nltk.word_tokenize is the oracle tokenize,
and the random letters of both keep_urls_preprocess calls come from the
oracle rnd (they only ever flow into placeholders and map keys, never into
the returned fields). -/
def extend_with_diff (rnd : Nat → String) (tokenize : String → List String)
    (oldrevision newrevision : String) : Dict :=
  let old_pre := keep_urls_preprocess rnd oldrevision
  let new_pre := keep_urls_preprocess rnd newrevision
  let old_rev_chunks := keep_urls_postprocess (tokenize old_pre.1) old_pre.2
  let new_rev_chunks := keep_urls_postprocess (tokenize new_pre.1) new_pre.2
  let old_rev_set := old_rev_chunks.dedup
  let new_rev_set := new_rev_chunks.dedup
  let diff_set := sortedSet (new_rev_set.filter (fun t => !old_rev_set.contains t))
  let diff_word := String.intercalate " " diff_set
  let neg_diff_set := sortedSet (old_rev_set.filter (fun t => !new_rev_set.contains t))
  let neg_diff_word := String.intercalate " " neg_diff_set
  let old_rev_urls := (old_pre.2.map Prod.snd).dedup
  let new_rev_urls := (new_pre.2.map Prod.snd).dedup
  let url_diff_set := sortedSet (new_rev_urls.filter (fun t => !old_rev_urls.contains t))
  let url_diff_word := String.intercalate " " url_diff_set
  let urls_added := !url_diff_set.isEmpty
  let neg_url_diff_set := sortedSet (old_rev_urls.filter (fun t => !new_rev_urls.contains t))
  let neg_url_diff_word := String.intercalate " " neg_url_diff_set
  let urls_removed := !neg_url_diff_set.isEmpty
  [("diff", Value.vstr diff_word), ("neg_diff", Value.vstr neg_diff_word),
   ("urls", Value.vstr url_diff_word), ("neg_urls", Value.vstr neg_url_diff_word),
   ("urls_added", Value.vbool urls_added), ("urls_removed", Value.vbool urls_removed)]

/-- Random-letter oracle used to evaluate the pipeline on concrete inputs. -/
def rnd0 : Nat → String := fun _ => "abcdefghijklmnop"

/-- C5: keep_urls_postprocess returns the empty list whatever its arguments,
because the source iterates over its own freshly created empty accumulator;
consequently both token sets in extend_with_diff are empty and the diff and
neg_diff fields are always the empty string. -/
theorem keep_urls_postprocess_always_empty :
    (∀ chunks preprocessor_map,
        keep_urls_postprocess chunks preprocessor_map = []) ∧
    (∀ rnd tokenize oldrevision newrevision,
        dget (extend_with_diff rnd tokenize oldrevision newrevision) "diff"
            = some (Value.vstr "") ∧
        dget (extend_with_diff rnd tokenize oldrevision newrevision) "neg_diff"
            = some (Value.vstr "")) :=
  ⟨fun _ _ => rfl, fun _ _ _ _ => ⟨rfl, rfl⟩⟩

/-- C1: the code evaluated on a text holding one URL. keep_urls_preprocess
does replace the URL with the placeholder and record it in the map, but for
every tokenizer the postprocessed chunk list is empty, so the URL is not
restored as an atomic token of the chunk list used for diffing. -/
theorem keep_urls_roundtrip_loses_url :
    (keep_urls_preprocess rnd0 "see http://example.com/test here"
      = ("see lskmqsabcdefghijklmnop here",
         [("lskmqsabcdefghijklmnop", "http://example.com/test")])) ∧
    (∀ tokenize : String → List String,
      "http://example.com/test" ∉
        keep_urls_postprocess
          (tokenize (keep_urls_preprocess rnd0
            "see http://example.com/test here").1)
          (keep_urls_preprocess rnd0
            "see http://example.com/test here").2) := by
  refine ⟨by decide, fun tokenize => ?_⟩
  simp [keep_urls_postprocess]

/-- C2: extend_with_diff evaluated at concrete revisions. With old "" and
new "hello" the diff field is the empty string for every tokenizer, though
the token-set difference the claim describes would hold "hello"; the urls
and urls_added fields do report the recovered-URL set difference. -/
theorem extend_with_diff_concrete :
    ∀ tokenize : String → List String,
      dget (extend_with_diff rnd0 tokenize "" "hello") "diff"
          = some (Value.vstr "") ∧
      dget (extend_with_diff rnd0 tokenize ""
          "see http://example.com/test here") "urls"
          = some (Value.vstr "http://example.com/test") ∧
      dget (extend_with_diff rnd0 tokenize ""
          "see http://example.com/test here") "urls_added"
          = some (Value.vbool true) :=
  fun _ => ⟨rfl, rfl, rfl⟩

/-! ## extend_with_ratio_metrics (antivandal.py:277-302) -/

/-- The loop body of extend_with_ratio_metrics for one key: the source
computes lower_len with the uppercase set (a slip: the lowercase set defined
right below it is never used), and the guard `value == 0` is never true of a
string, so the lzw compressor (the oracle compress, returning the list of
compressed bytes) always runs. -/
def ratioMetricsFor (compress : String → List Nat) (key : String)
    (value : String) : Dict :=
  let total_len := value.length
  let upper_len := (value.data.filter uppercase).length
  let lower_len := (value.data.filter uppercase).length
  let digits_len := (value.data.filter digits).length
  let alnum_len := (value.data.filter alphanum).length
  let compressed_len := (compress value).length
  [(key ++ "_ul_ratio",
      if lower_len = 0 then Value.vnone
      else Value.vrat ((upper_len : ℚ) / (lower_len : ℚ))),
   (key ++ "_u_ratio",
      if total_len = 0 then Value.vnone
      else Value.vrat ((upper_len : ℚ) / (total_len : ℚ))),
   (key ++ "_d_ratio",
      if total_len = 0 then Value.vnone
      else Value.vrat ((digits_len : ℚ) / (total_len : ℚ))),
   (key ++ "_non_alnum_ratio",
      if total_len = 0 then Value.vnone
      else Value.vrat (((total_len : ℚ) - (alnum_len : ℚ)) / (total_len : ℚ))),
   (key ++ "_compressibility",
      if compressed_len = 0 then Value.vnone
      else Value.vrat ((total_len : ℚ) / (compressed_len : ℚ)))]

/-- Embedding of extend_with_ratio_metrics: record[key] for the three keys
diff, neg_diff and editcomment (none on the KeyError of a missing or
non-string field), then the joined update dict. -/
def extend_with_ratio_metrics (compress : String → List Nat)
    (record : Dict) : Option Dict :=
  match dget record "diff", dget record "neg_diff",
      dget record "editcomment" with
  | some (Value.vstr d), some (Value.vstr nd), some (Value.vstr ec) =>
    some (ratioMetricsFor compress "diff" d
      ++ ratioMetricsFor compress "neg_diff" nd
      ++ ratioMetricsFor compress "editcomment" ec)
  | _, _, _ => none

/-- Record used to evaluate extend_with_ratio_metrics concretely. -/
def ratioRecord : Dict :=
  [("diff", Value.vstr "abc"), ("neg_diff", Value.vstr ""),
   ("editcomment", Value.vstr "")]

/-- C3: on the record with diff "abc" the code returns diff_ul_ratio None
for every compressor, although "abc" has three lowercase characters (a
nonzero denominator, for which the claim requires the ratio 0/3); the
u_ratio field of the same run is 0 as the claim states. The slip is that
lower_len is computed with the uppercase set. -/
theorem extend_with_ratio_metrics_ul_flaw :
    ∀ compress : String → List Nat,
      dget ((extend_with_ratio_metrics compress ratioRecord).getD [])
          "diff_ul_ratio" = some Value.vnone ∧
      ("abc".data.filter lowercase).length = 3 ∧
      dget ((extend_with_ratio_metrics compress ratioRecord).getD [])
          "diff_u_ratio" = some (Value.vrat 0) :=
  fun _ => ⟨rfl, rfl, by with_unfolding_all rfl⟩

/-! ## apply (antivandal.py:190-206) -/

/-- One derivation function inside the loop of apply: if it returns a truthy
dict, dict(record, **ret) merges it over the record (the new bindings win). -/
def chainStep (f : Dict → Option Dict) (record : Dict) : Dict :=
  match f record with
  | none => record
  | some ret => if ret.isEmpty then record else ret ++ record

/-- The inner for-loop of apply: the functions run in order, each seeing the
record as merged so far. -/
def chainApply (functions : List (Dict → Option Dict)) (record : Dict) :
    Dict :=
  functions.foldl (fun r f => chainStep f r) record

/-- The per-record body of apply: keep orig_record, run the chain, and issue
corpus.update exactly when the merged record no longer equals the original;
the result is the record as stored afterwards and whether an update was
issued. -/
def applyRecord (functions : List (Dict → Option Dict)) (record : Dict) :
    Dict × Bool :=
  if dictEqB (chainApply functions record) record then (record, false)
  else (chainApply functions record, true)

/-- Embedding of apply over the whole stored collection. -/
def apply (functions : List (Dict → Option Dict)) (corpus : List Dict) :
    List (Dict × Bool) :=
  corpus.map (applyRecord functions)

/-- C4: apply runs the derivation functions in order, merging each returned
dict into the record, and issues a database update for a record exactly when
the merged record differs (as a dict) from the record as read; an unchanged
record is handed back untouched, with no write. -/
theorem apply_updates_iff_changed (functions : List (Dict → Option Dict))
    (corpus : List Dict) (record : Dict) :
    apply functions corpus = corpus.map (applyRecord functions) ∧
    ((applyRecord functions record).2 = true ↔
      ¬ DictEqv (chainApply functions record) record) ∧
    (DictEqv (chainApply functions record) record →
      applyRecord functions record = (record, false)) := by
  refine ⟨rfl, ⟨?_, ?_⟩, ?_⟩
  · intro h2 he
    have hb : dictEqB (chainApply functions record) record = true :=
      (dictEqB_iff _ _).mpr he
    unfold applyRecord at h2
    rw [if_pos hb] at h2
    exact Bool.false_ne_true h2
  · intro hne
    unfold applyRecord
    cases hb : dictEqB (chainApply functions record) record with
    | false => rw [if_neg (by simp [hb])]
    | true => exact absurd ((dictEqB_iff _ _).mp hb) hne
  · intro he
    unfold applyRecord
    rw [if_pos ((dictEqB_iff _ _).mpr he)]

/-! ## cleanup (antivandal.py:209-218) -/

/-- The key list of cleanup as the source writes it: the Python list literal
has no commas, so its twenty adjacent string literals concatenate into one
element, and none of the individual metric names is in the list. -/
def cleanupKeys : List String :=
  ["difflen" ++ "commentlen" ++ "empty_comment" ++ "sz_ratio" ++ "ul_ratio"
      ++ "u_ratio" ++ "d_ratio" ++ "non_alnum_ratio" ++ "compressibility"
      ++ "longest_word" ++ "longest_seq" ++ "diff_word" ++ "neg_ul_ratio"
      ++ "neg_u_ratio" ++ "neg_d_ratio" ++ "neg_non_alnum_ratio"
      ++ "neg_compressibility" ++ "neg_longest_word" ++ "neg_longest_seq"
      ++ "neg_diff_word"]

/-- Python record.pop(key, None) on the local kwargs dict. -/
def dpop (record : Dict) (key : String) : Dict :=
  record.filter (fun p => p.1 != key)

/-- Embedding of cleanup: pop each entry of cleanupKeys from the local
kwargs, then return the editcomment reset exactly when it equals the string
"null", and Python's implicit None otherwise. -/
def cleanup (record : Dict) : Option Dict :=
  let record := cleanupKeys.foldl dpop record
  if dget record "editcomment" = some (Value.vstr "null") then
    some [("editcomment", Value.vstr "")]
  else none

theorem dget_dpop_ne (d : Dict) (key k : String) (h : ¬ key = k) :
    dget (dpop d key) k = dget d k := by
  induction d with
  | nil => rfl
  | cons p rest ih =>
    by_cases hp : p.1 = key
    · have hd : dpop (p :: rest) key = dpop rest key := by
        unfold dpop
        rw [List.filter_cons_of_neg (by simp [hp])]
      rw [hd, ih]
      show dget rest k = if p.1 = k then some p.2 else dget rest k
      rw [if_neg (fun e => h (hp.symm.trans e))]
    · have hd : dpop (p :: rest) key = p :: dpop rest key := by
        unfold dpop
        rw [List.filter_cons_of_pos (by simp [hp])]
      rw [hd]
      show (if p.1 = k then some p.2 else dget (dpop rest key) k)
        = if p.1 = k then some p.2 else dget rest k
      rw [ih]

theorem dget_foldl_dpop (keys : List String) (d : Dict) (k : String)
    (h : k ∉ keys) : dget (keys.foldl dpop d) k = dget d k := by
  induction keys generalizing d with
  | nil => rfl
  | cons key rest ih =>
    rw [List.foldl_cons]
    rw [ih (dpop d key) (fun hm => h (List.mem_cons.mpr (Or.inr hm)))]
    exact dget_dpop_ne d key k
      (fun e => h (List.mem_cons.mpr (Or.inl e.symm)))

/-- C9: the key list of cleanup is the implicit concatenation of its string
literals, so none of the individual metric keys like difflen, sz_ratio or
compressibility is in it or gets removed; cleanup returns the editcomment
reset exactly when the record's editcomment is the string "null", and None
otherwise; and under the merge step of apply the only field a cleanup pass
can change is editcomment. -/
theorem cleanup_only_resets_editcomment (record : Dict) (k : String) :
    ("difflen" ∉ cleanupKeys ∧ "sz_ratio" ∉ cleanupKeys ∧
      "compressibility" ∉ cleanupKeys) ∧
    (cleanup record = some [("editcomment", Value.vstr "")] ↔
      dget record "editcomment" = some (Value.vstr "null")) ∧
    (cleanup record = none ↔
      ¬ dget record "editcomment" = some (Value.vstr "null")) ∧
    (¬ k = "editcomment" →
      dget (chainStep cleanup record) k = dget record k) := by
  have hS : dget (cleanupKeys.foldl dpop record) "editcomment"
      = dget record "editcomment" :=
    dget_foldl_dpop cleanupKeys record "editcomment" (by decide)
  have hcl : cleanup record
      = if dget record "editcomment" = some (Value.vstr "null") then
          some [("editcomment", Value.vstr "")]
        else none := by
    show (if dget (cleanupKeys.foldl dpop record) "editcomment"
          = some (Value.vstr "null") then
        some [("editcomment", Value.vstr "")]
      else none)
      = if dget record "editcomment" = some (Value.vstr "null") then
          some [("editcomment", Value.vstr "")]
        else none
    rw [hS]
  refine ⟨⟨by decide, by decide, by decide⟩, ?_, ?_, ?_⟩
  · rw [hcl]
    by_cases h : dget record "editcomment" = some (Value.vstr "null")
    · rw [if_pos h]
      exact iff_of_true rfl h
    · rw [if_neg h]
      exact iff_of_false (by simp) h
  · rw [hcl]
    by_cases h : dget record "editcomment" = some (Value.vstr "null")
    · rw [if_pos h]
      exact iff_of_false (by simp) (not_not_intro h)
    · rw [if_neg h]
      exact iff_of_true rfl h
  · intro hk
    unfold chainStep
    rw [hcl]
    by_cases h : dget record "editcomment" = some (Value.vstr "null")
    · rw [if_pos h]
      show dget ([("editcomment", Value.vstr "")] ++ record) k = dget record k
      show (if "editcomment" = k then some (Value.vstr "") else dget record k)
        = dget record k
      rw [if_neg (fun e => hk e.symm)]
    · rw [if_neg h]

/-! ## api_request (antivandal.py:329-352) -/

/-- A keyword-argument value of api_request: a string, or a list that gets
joined with the mediawiki "|" separator. -/
inductive ApiParam where
  | s : String → ApiParam
  | l : List String → ApiParam
deriving Repr, DecidableEq

/-- Conversion of lists to the "|"-separated mediawiki representation. -/
def joinParam : ApiParam → String
  | ApiParam.s v => v
  | ApiParam.l xs => String.intercalate "|" xs

/-- kw.update(format='json'): the format binding is set, shadowing any old
one. -/
def setFormatJson (kw : List (String × ApiParam)) : List (String × ApiParam) :=
  kw.filter (fun p => p.1 != "format") ++ [("format", ApiParam.s "json")]

/-- Uppercase hexadecimal digit of n < 16. -/
def hexDigit (n : Nat) : Char :=
  if n < 10 then Char.ofNat ('0'.toNat + n)
  else Char.ofNat ('A'.toNat + (n - 10))

/-- urllib.quote_plus on one character: letters, digits and "_.-" are kept,
the space becomes "+", anything else is percent-encoded. -/
def quotePlusChar (c : Char) : String :=
  if alphanum c || c = '_' || c = '.' || c = '-' then String.singleton c
  else if c = ' ' then "+"
  else String.mk ['%', hexDigit (c.toNat / 16 % 16), hexDigit (c.toNat % 16)]

/-- urllib.quote_plus on a string. -/
def quotePlus (s : String) : String := String.join (s.data.map quotePlusChar)

/-- urllib.urlencode over an item list: quoted k=v pairs joined with "&". -/
def urlencode (pairs : List (String × String)) : String :=
  String.intercalate "&"
    (pairs.map (fun p => quotePlus p.1 ++ "=" ++ quotePlus p.2))

/-- Python tuple comparison on (key, value) items of strings. -/
def paramLe (a b : String × String) : Prop :=
  a.1 < b.1 ∨ (a.1 = b.1 ∧ a.2 ≤ b.2)

instance : DecidableRel paramLe := fun a b => by
  unfold paramLe
  infer_instance

instance : IsTotal (String × String) paramLe := ⟨fun a b => by
  unfold paramLe
  rcases lt_trichotomy a.1 b.1 with h | h | h
  · exact Or.inl (Or.inl h)
  · rcases le_total a.2 b.2 with h2 | h2
    · exact Or.inl (Or.inr ⟨h, h2⟩)
    · exact Or.inr (Or.inr ⟨h.symm, h2⟩)
  · exact Or.inr (Or.inl h)⟩

instance : IsTrans (String × String) paramLe := ⟨fun a b c hab hbc => by
  unfold paramLe at hab hbc ⊢
  rcases hab with h1 | ⟨e1, le1⟩ <;> rcases hbc with h2 | ⟨e2, le2⟩
  · exact Or.inl (lt_trans h1 h2)
  · exact Or.inl (lt_of_lt_of_le h1 (le_of_eq e2))
  · exact Or.inl (lt_of_le_of_lt (le_of_eq e1) h2)
  · exact Or.inr ⟨e1.trans e2, le_trans le1 le2⟩⟩

instance : IsAntisymm (String × String) paramLe := ⟨fun a b hab hba => by
  unfold paramLe at hab hba
  rcases hab with h1 | ⟨e1, le1⟩ <;> rcases hba with h2 | ⟨e2, le2⟩
  · exact absurd (lt_trans h1 h2) (lt_irrefl _)
  · exact absurd (lt_of_lt_of_le h1 (le_of_eq e2)) (lt_irrefl _)
  · exact absurd (lt_of_lt_of_le h2 (le_of_eq e1)) (lt_irrefl _)
  · exact Prod.ext_iff.mpr ⟨e1, le_antisymm le1 le2⟩⟩

/-- sorted(params.iteritems()): Python sorts the item tuples
lexicographically. -/
def sortParams (pairs : List (String × String)) : List (String × String) :=
  List.insertionSort paramLe pairs

/-- The GET parameter dict of api_request: action together with the keyword
arguments after kw.update(format='json') and list joining (the source's
dict(action=action, **kw) presumes kw holds no action key of its own). -/
def requestParams (action : String) (kw : List (String × ApiParam)) :
    List (String × String) :=
  ("action", action) :: (setFormatJson kw).map (fun p => (p.1, joinParam p.2))

/-- The cache key: the URL-encoded, sorted parameter items. -/
def requestKey (action : String) (kw : List (String × ApiParam)) : String :=
  urlencode (sortParams (requestParams action kw))

/-- httpcache.find_one({'key': k}): the first stored document with the key. -/
def cacheFind : List (String × Value) → String → Option Value
  | [], _ => none
  | (k, v) :: rest, key => if k = key then some v else cacheFind rest key

/-- Embedding of api_request: on a cache hit the stored value is returned
and neither the cache nor the network is touched; on a miss the oracle fetch
(requests.get of the base url plus resp.json(), a function of the request's
parameter items) is called and the response inserted under the key. The
boolean records whether an HTTP GET was performed. -/
def api_request (fetch : List (String × String) → Value)
    (httpcache : List (String × Value)) (action : String)
    (kw : List (String × ApiParam)) :
    Value × List (String × Value) × Bool :=
  let cache_key := requestKey action kw
  match cacheFind httpcache cache_key with
  | some v => (v, httpcache, false)
  | none =>
    let json_resp := fetch (sortParams (requestParams action kw))
    (json_resp, httpcache ++ [(cache_key, json_resp)], true)

theorem cacheFind_append_self (l : List (String × Value)) (key : String)
    (v : Value) (h : cacheFind l key = none) :
    cacheFind (l ++ [(key, v)]) key = some v := by
  induction l with
  | nil => simp [cacheFind]
  | cons p rest ih =>
    by_cases hp : p.1 = key
    · exfalso
      have : cacheFind (p :: rest) key = some p.2 := by
        show (if p.1 = key then some p.2 else cacheFind rest key) = some p.2
        rw [if_pos hp]
      rw [h] at this
      cases this
    · have h2 : cacheFind rest key = none := by
        have : cacheFind (p :: rest) key = cacheFind rest key := by
          show (if p.1 = key then some p.2 else cacheFind rest key) = _
          rw [if_neg hp]
        rw [← this, h]
      show (if p.1 = key then some p.2 else cacheFind (rest ++ [(key, v)]) key)
        = some v
      rw [if_neg hp]
      exact ih h2

theorem sortParams_eq_of_perm (l1 l2 : List (String × String))
    (h : l1.Perm l2) : sortParams l1 = sortParams l2 :=
  List.eq_of_perm_of_sorted
    ((List.perm_insertionSort paramLe l1).trans
      (h.trans (List.perm_insertionSort paramLe l2).symm))
    (List.sorted_insertionSort paramLe l1)
    (List.sorted_insertionSort paramLe l2)

theorem requestParams_perm (action : String)
    (kw1 kw2 : List (String × ApiParam)) (h : kw1.Perm kw2) :
    (requestParams action kw1).Perm (requestParams action kw2) :=
  List.Perm.cons _ (((h.filter _).append_right _).map _)

/-- C6: api_request performs an HTTP GET exactly when the cache holds no
entry under the key built from the sorted, URL-encoded request parameters;
repeating the call with the same arguments on the resulting cache returns
the stored value with no further fetch (and so equal results); and keyword
dicts equal up to reordering of their items build the same cache key. -/
theorem api_request_cache_behavior (fetch : List (String × String) → Value)
    (httpcache : List (String × Value)) (action : String)
    (kw : List (String × ApiParam)) :
    ((api_request fetch httpcache action kw).2.2 = true ↔
      cacheFind httpcache (requestKey action kw) = none) ∧
    (api_request fetch (api_request fetch httpcache action kw).2.1 action kw
      = ((api_request fetch httpcache action kw).1,
         (api_request fetch httpcache action kw).2.1, false)) ∧
    (∀ kw2, kw.Perm kw2 → requestKey action kw = requestKey action kw2) := by
  refine ⟨?_, ?_, ?_⟩
  · unfold api_request
    cases hc : cacheFind httpcache (requestKey action kw) with
    | some v => simp [hc]
    | none => simp [hc]
  · unfold api_request
    cases hc : cacheFind httpcache (requestKey action kw) with
    | some v => simp [hc]
    | none =>
      simp only [hc]
      rw [cacheFind_append_self httpcache (requestKey action kw)
        (fetch (sortParams (requestParams action kw))) hc]
  · intro kw2 h
    unfold requestKey
    rw [sortParams_eq_of_perm _ _ (requestParams_perm action kw kw2 h)]

/-! ## export_collection (antivandal.py:142-182) -/

/-- Lookup in the converters dict. -/
def convFind : List (String × (Value → Value)) → String →
    Option (Value → Value)
  | [], _ => none
  | (k, f) :: rest, key => if k = key then some f else convFind rest key

/-- The write conversions ending the loop body of export_collection: a
unicode value is encoded as utf8 bytes and a boolean is written as an
integer (no value is both, so one match renders the two if statements). -/
def pyWrite : Value → Value
  | Value.vstr s => Value.vbytes s
  | Value.vbool b => Value.vint (if b then 1 else 0)
  | v => v

/-- The converter step: converters[k] is applied when the field has one. -/
def applyConv (converters : List (String × (Value → Value))) (k : String)
    (v : Value) : Value :=
  match convFind converters k with
  | some f => f v
  | none => v

/-- record.get(k, default_values.get(k)): the record's value when the key is
present, else the configured default, else None. -/
def exportBase (default_values : Dict) (record : Dict) (k : String) : Value :=
  match dget record k with
  | some v => v
  | none =>
    match dget default_values k with
    | some d => d
    | none => Value.vnone

/-- The cell export_collection writes for one field of one record. -/
def export_collection_value (converters : List (String × (Value → Value)))
    (default_values : Dict) (record : Dict) (k : String) : Value :=
  pyWrite (applyConv converters k (exportBase default_values record k))

/-- The out row written for a record: one entry per returned field. -/
def export_collection_row (converters : List (String × (Value → Value)))
    (default_values : Dict) (returnedList : List String) (record : Dict) :
    Dict :=
  returnedList.map
    (fun k => (k, export_collection_value converters default_values record k))

/-- The default exclude list of export_collection. -/
def defaultExclude : List String :=
  ["oldrevision", "newrevision", "diff_word", "neg_diff_word"]

/-- The column selection of export_collection: with include given, the
returned fields are exactly the include list; otherwise the first record's
field set minus the exclude set (the default one when none is given) and
minus _id, in sorted order. -/
def returned_fields (all_fields : List String)
    (includeFields excludeFields : Option (List String)) : List String :=
  match includeFields with
  | some inc => inc
  | none =>
    let exclude := (match excludeFields with
      | some e => e
      | none => defaultExclude) ++ ["_id"]
    List.insertionSort (fun a b : String => a ≤ b)
      ((all_fields.filter (fun f => !exclude.contains f)).dedup)

theorem mem_sorted_fields (all_fields exclude : List String) (x : String) :
    x ∈ List.insertionSort (fun a b : String => a ≤ b)
        ((all_fields.filter (fun f => !exclude.contains f)).dedup) ↔
      x ∈ all_fields ∧ x ∉ exclude := by
  rw [(List.perm_insertionSort _ _).mem_iff, List.mem_dedup, List.mem_filter]
  simp

/-- C7: each cell export_collection writes is the record's value when the
field is present and the configured default otherwise, passed through the
field's converter when there is one, with unicode encoded as utf8 and
booleans written as integers; with include given the output columns are
exactly the include list, and otherwise the record's fields minus the
excluded set (defaulting to oldrevision, newrevision, diff_word,
neg_diff_word, plus _id) in sorted order. -/
theorem export_collection_spec (converters : List (String × (Value → Value)))
    (default_values record : Dict) (k : String) (inc all_fields : List String)
    (excludeFields : Option (List String)) :
    (∀ v, dget record k = some v →
      export_collection_value converters default_values record k
        = pyWrite (applyConv converters k v)) ∧
    (dget record k = none →
      export_collection_value converters default_values record k
        = pyWrite (applyConv converters k
            ((dget default_values k).getD Value.vnone))) ∧
    (∀ f v, convFind converters k = some f → applyConv converters k v = f v) ∧
    (∀ v, convFind converters k = none → applyConv converters k v = v) ∧
    (∀ s, pyWrite (Value.vstr s) = Value.vbytes s) ∧
    (∀ b, pyWrite (Value.vbool b) = Value.vint (if b then 1 else 0)) ∧
    (returned_fields all_fields (some inc) excludeFields = inc) ∧
    ((export_collection_row converters default_values inc record).map Prod.fst
      = inc) ∧
    (∀ x, x ∈ returned_fields all_fields none excludeFields ↔
      (x ∈ all_fields ∧ x ∉ excludeFields.getD defaultExclude ∧
        ¬ x = "_id")) ∧
    List.Sorted (fun a b : String => a ≤ b)
      (returned_fields all_fields none excludeFields) := by
  refine ⟨?_, ?_, ?_, ?_, fun _ => rfl, fun _ => rfl, rfl, ?_, ?_, ?_⟩
  · intro v h
    unfold export_collection_value exportBase
    rw [h]
  · intro h
    unfold export_collection_value exportBase
    rw [h]
    cases hd : dget default_values k <;> simp [hd]
  · intro f v h
    unfold applyConv
    rw [h]
  · intro v h
    unfold applyConv
    rw [h]
  · unfold export_collection_row
    rw [List.map_map]
    exact List.map_id _
  · intro x
    unfold returned_fields
    cases excludeFields with
    | none =>
      rw [mem_sorted_fields]
      simp [List.mem_append, not_or, and_assoc]
    | some e =>
      rw [mem_sorted_fields]
      simp [List.mem_append, not_or, and_assoc]
  · unfold returned_fields
    cases excludeFields with
    | none => exact List.sorted_insertionSort _ _
    | some e => exact List.sorted_insertionSort _ _

/-! ## split_idx (antivandal_export.py:102-107) -/

/-- Embedding of split_idx: np.arange(n) is List.range n; np.random.seed
plus np.random.shuffle is the oracle shuffle (the permutation the seeded
generator produces); Python's int() truncates the nonnegative product n*p,
which is its floor. -/
def split_idx (shuffle : List Nat → List Nat) (dataset_length : Nat)
    (p : ℚ) : List Nat × List Nat :=
  let idx := shuffle (List.range dataset_length)
  let t := (⌊(dataset_length : ℚ) * p⌋).toNat
  (idx.take t, idx.drop t)

/-- C8: whenever the shuffle oracle returns a permutation of range n (which
is what the seeded np.random.shuffle does) and p is a fraction between 0 and
1, the two index arrays of split_idx together hold every index 0..n-1
exactly once, the first has exactly floor(n*p) elements, and they are
disjoint; the split is a pure function of n, p and the seeded shuffle. -/
theorem split_idx_partition (shuffle : List Nat → List Nat) (n : Nat) (p : ℚ)
    (hperm : (shuffle (List.range n)).Perm (List.range n))
    (hp0 : 0 ≤ p) (hp1 : p ≤ 1) :
    ((split_idx shuffle n p).1 ++ (split_idx shuffle n p).2).Perm
        (List.range n) ∧
    (split_idx shuffle n p).1.length = (⌊(n : ℚ) * p⌋).toNat ∧
    (∀ x, x ∈ (split_idx shuffle n p).1 →
      x ∉ (split_idx shuffle n p).2) := by
  have hlen : (shuffle (List.range n)).length = n := by
    rw [hperm.length_eq, List.length_range]
  have ht : (⌊(n : ℚ) * p⌋).toNat ≤ n := by
    have h1 : (n : ℚ) * p ≤ (n : ℚ) := by
      calc (n : ℚ) * p ≤ (n : ℚ) * 1 :=
            mul_le_mul_of_nonneg_left hp1 (by positivity)
        _ = n := mul_one _
    have h2 : ⌊(n : ℚ) * p⌋ ≤ (n : Int) := by
      calc ⌊(n : ℚ) * p⌋ ≤ ⌊(n : ℚ)⌋ := Int.floor_le_floor h1
        _ = (n : Int) := Int.floor_natCast n
    omega
  refine ⟨?_, ?_, ?_⟩
  · show ((shuffle (List.range n)).take ((⌊(n : ℚ) * p⌋).toNat)
      ++ (shuffle (List.range n)).drop ((⌊(n : ℚ) * p⌋).toNat)).Perm _
    rw [List.take_append_drop]
    exact hperm
  · show ((shuffle (List.range n)).take ((⌊(n : ℚ) * p⌋).toNat)).length = _
    rw [List.length_take, hlen]
    exact min_eq_left ht
  · intro x hx1 hx2
    have hnd : (shuffle (List.range n)).Nodup :=
      hperm.nodup_iff.mpr (List.nodup_range n)
    rw [← List.take_append_drop ((⌊(n : ℚ) * p⌋).toNat)
      (shuffle (List.range n)), List.nodup_append] at hnd
    exact hnd.2.2 hx1 hx2

/-- Witness for C8 at the reversing shuffle, n = 4 and p = 1/2. -/
theorem split_idx_partition_witness :
    ((split_idx (fun l => l.reverse) 4 (1/2)).1
        ++ (split_idx (fun l => l.reverse) 4 (1/2)).2).Perm (List.range 4) ∧
    (split_idx (fun l => l.reverse) 4 (1/2)).1.length
        = (⌊((4 : Nat) : ℚ) * (1/2)⌋).toNat ∧
    (∀ x, x ∈ (split_idx (fun l => l.reverse) 4 (1/2)).1 →
      x ∉ (split_idx (fun l => l.reverse) 4 (1/2)).2) :=
  split_idx_partition (fun l => l.reverse) 4 (1/2)
    (List.reverse_perm (List.range 4)) (by norm_num) (by norm_num)
